import Mathlib

/-!
# Verification of the postgres-rag-agent specification

The repository's only executable artifact is the Payload CMS configuration
(`src/cms/src/payload.config.ts`); the Hybrid Retrieval & Ranking Engine
(score normalizer, hybrid merger/ranker, context budgeter) is specified at
design level only (spec §4.4–§4.6, planning docs `src/.plan/PHASE_2.md`).
We embed the Payload configuration from the source and model the retrieval
core from the specification's words, then prove the claimed properties.

Scores are embedded as rationals (`ℚ`): every claimed property of the
retrieval core is an exact order/arithmetic property of the score algebra,
not a floating-point rounding property.
-/

namespace RagAgent

/-! ## Data model (spec §3) -/

/-- `matchedVia` tag of a `ScoredResult` (spec §3). -/
inductive MatchedVia where
  | semantic
  | lexical
  | both
deriving DecidableEq, Repr

/-- A merged search result (spec §3 `ScoredResult`): chunk identity, the
optional per-branch normalized scores, the combined score, the match tag,
and the chunk's token count (read from the document store, spec §6). -/
structure ScoredResult where
  id : String
  semanticScore : Option ℚ
  lexicalScore : Option ℚ
  combinedScore : ℚ
  matchedVia : MatchedVia
  tokenCount : Nat
deriving DecidableEq, Repr

/-- Branch weights of a `RetrievalRequest` (spec §3). -/
structure Weights where
  semanticWeight : ℚ
  textWeight : ℚ
deriving DecidableEq, Repr

/-- Optional predicate over category/tags (spec §3 `SearchFilter`); applied
inside the external readers, carried opaquely by the core. -/
structure SearchFilter where
  category : Option String
  tags : List String
deriving DecidableEq, Repr

/-- A retrieval request (spec §3). -/
structure RetrievalRequest where
  query : String
  limit : Nat
  filter : Option SearchFilter
  weights : Weights
deriving DecidableEq, Repr

/-- Error taxonomy of the caller-visible operation (spec §7). -/
inductive RetrievalError where
  | invalidRequest
  | retrievalUnavailable
deriving DecidableEq, Repr

/-- Modelled from the spec: §7 `InvalidRequest` — "malformed
`RetrievalRequest` (empty query, non-positive limit, out-of-range weights);
fails fast, never reaches the branches". -/
def validRequest (req : RetrievalRequest) : Bool :=
  !(req.query == "") && decide (0 < req.limit)
    && decide (0 ≤ req.weights.semanticWeight) && decide (req.weights.semanticWeight ≤ 1)
    && decide (0 ≤ req.weights.textWeight) && decide (req.weights.textWeight ≤ 1)

/-! ## Score Normalizer (spec §4.4) -/

/-- Smaller of two rationals. -/
def qmin (a b : ℚ) : ℚ := if a ≤ b then a else b

/-- Larger of two rationals. -/
def qmax (a b : ℚ) : ℚ := if a ≤ b then b else a

/-- Modelled from the spec: §4.4 Score Normalizer, absent from the source.
Min-max rescale within the current batch; a batch of size 1 or with
all-equal scores normalizes every element to 1. -/
def normalize : List ℚ → List ℚ
  | [] => []
  | s :: ss =>
    if ss.foldl qmax s = ss.foldl qmin s then (s :: ss).map (fun _ => 1)
    else (s :: ss).map (fun x => (x - ss.foldl qmin s) / (ss.foldl qmax s - ss.foldl qmin s))

/-! ## Context Budgeter (spec §4.6) -/

/-- Modelled from the spec: §4.6 Context Budgeter, absent from the source.
Greedily includes results in order while the cumulative token count stays
within `maxTokens` and the count stays within `maxChunks`; stops at the
first result that would exceed either limit. Total (never fails). -/
def budget : List ScoredResult → Nat → Nat → List ScoredResult
  | [], _, _ => []
  | r :: rs, maxChunks, maxTokens =>
    if r.tokenCount ≤ maxTokens ∧ 1 ≤ maxChunks then
      r :: budget rs (maxChunks - 1) (maxTokens - r.tokenCount)
    else []

/-- Cumulative token count of a result list. -/
def tokensOf (rs : List ScoredResult) : Nat :=
  (rs.map ScoredResult.tokenCount).sum

/-! ## Hybrid Merger / Ranker (spec §4.5)

In the shallow embedding the two branch calls are external I/O; their
outcomes are passed to `hybridSearch` as arguments. `none` stands for a
branch that failed (`IndexUnavailable` or a branch timeout, spec §5/§7),
`some hits` for a branch that returned its candidate list.  The vector
branch yields `(chunkId, rawDistance)` pairs ascending by cosine distance
(spec §4.2), the lexical branch `(chunkId, relevanceScore)` pairs
descending by relevance (spec §4.3; the snippet plays no role in ranking).
The document-store lookup enriching results with token counts (spec §6) is
the function `tokenOf`. -/

/-- A branch's candidate list: chunk identifier paired with the branch's
raw score. -/
abbrev Hit := String × ℚ

/-- Keep the first occurrence of each chunk identifier, dropping later
occurrences and any identifier in `seen`. -/
def dedupHits (seen : List String) : List Hit → List Hit
  | [] => []
  | p :: ps =>
    if p.1 ∈ seen then dedupHits seen ps
    else p :: dedupHits (p.1 :: seen) ps

/-- First occurrences of identifiers not in `seen` (identifier-level image
of `dedupHits`, used to count distinct candidates). -/
def dedupIds (seen : List String) : List String → List String
  | [] => []
  | x :: xs =>
    if x ∈ seen then dedupIds seen xs
    else x :: dedupIds (x :: seen) xs

/-- The branch score recorded for a chunk identifier, if present. -/
def lookupScore (id : String) (ps : List Hit) : Option ℚ :=
  (ps.find? (fun p => p.1 = id)).map Prod.snd

/-- Modelled from the spec: §4.5 step 4, absent from the source.  Merge the
two branches' normalized candidate lists by chunk identifier: a chunk in
both branches gets `matchedVia = both` and
`combinedScore = semanticScore * semanticWeight + lexicalScore * textWeight`;
a chunk in exactly one branch keeps that branch's normalized score as its
`combinedScore` (the renormalized single-term form, spec §4.5 step 4), with
the missing score recorded as absent.  The output order is first-seen
order: vector branch first, then the lexical-only remainder. -/
def mergeCandidates (w : Weights) (tokenOf : String → Nat)
    (vPairs lPairs : List Hit) : List ScoredResult :=
  (vPairs.map (fun p =>
    match lookupScore p.1 lPairs with
    | some l =>
      { id := p.1, semanticScore := some p.2, lexicalScore := some l,
        combinedScore := p.2 * w.semanticWeight + l * w.textWeight,
        matchedVia := .both, tokenCount := tokenOf p.1 }
    | none =>
      { id := p.1, semanticScore := some p.2, lexicalScore := none,
        combinedScore := p.2, matchedVia := .semantic, tokenCount := tokenOf p.1 }))
  ++ ((lPairs.filter (fun p => lookupScore p.1 vPairs = none)).map (fun p =>
    { id := p.1, semanticScore := none, lexicalScore := some p.2,
      combinedScore := p.2, matchedVia := .lexical, tokenCount := tokenOf p.1 }))

/-- Priority rank of a match tag for tie-breaking: `both` ranks above the
single-source tags (spec §4.5 step 5). -/
def viaRank : MatchedVia → Nat
  | .both => 0
  | .semantic => 1
  | .lexical => 1

/-- Modelled from the spec: §4.5 step 5's sort order, absent from the
source.  `rankLE a b` holds when `a` may precede `b`: descending combined
score, then `both` above single-source, then ascending first-seen index
(the `Nat` component). -/
def rankLE (a b : Nat × ScoredResult) : Bool :=
  decide (b.2.combinedScore < a.2.combinedScore)
  || (decide (a.2.combinedScore = b.2.combinedScore)
      && (decide (viaRank a.2.matchedVia < viaRank b.2.matchedVia)
          || (decide (viaRank a.2.matchedVia = viaRank b.2.matchedVia)
              && decide (a.1 ≤ b.1))))

/-- Insert an indexed result into a list sorted by `rankLE`. -/
def insertRanked (a : Nat × ScoredResult) :
    List (Nat × ScoredResult) → List (Nat × ScoredResult)
  | [] => [a]
  | b :: bs => if rankLE a b then a :: b :: bs else b :: insertRanked a bs

/-- Insertion sort by `rankLE` (spec §4.5 step 5). -/
def sortRanked : List (Nat × ScoredResult) → List (Nat × ScoredResult)
  | [] => []
  | a :: as => insertRanked a (sortRanked as)

/-- Steps 1–4 of §4.5 on the two branch candidate lists: deduplicate each
branch's hits by chunk identifier, turn vector distances into similarities
`1 - d` (§4.2), normalize each branch's scores independently via §4.4, and
merge by chunk identifier. -/
def mergedCandidatesOf (w : Weights) (tokenOf : String → Nat)
    (vhits lhits : List Hit) : List ScoredResult :=
  let vraw := dedupHits [] vhits
  let lraw := dedupHits [] lhits
  mergeCandidates w tokenOf
    ((vraw.map Prod.fst).zip (normalize (vraw.map (fun h => 1 - h.2))))
    ((lraw.map Prod.fst).zip (normalize (lraw.map Prod.snd)))

/-- Steps 5–6 of §4.5: sort the merged candidates by descending combined
score with the total tie-break order (first-seen index attached by `enum`)
and truncate to `limit`. -/
def rankAndTruncate (limit : Nat) (merged : List ScoredResult) : List ScoredResult :=
  ((sortRanked merged.enum).map Prod.snd).take limit

/-- Modelled from the spec: §4.5 `hybridSearch`, the caller-facing
operation, absent from the source.  Validates the request (§7
`InvalidRequest`), fails with `RetrievalUnavailable` exactly when both
branches failed (§4.5 step 2), otherwise treats a failed branch as empty,
normalizes each branch's raw scores independently, merges by chunk
identifier, sorts by combined score with the total tie-break order, and
truncates to `req.limit`. -/
def hybridSearch (req : RetrievalRequest) (tokenOf : String → Nat)
    (vecOut lexOut : Option (List Hit)) :
    Except RetrievalError (List ScoredResult) :=
  if validRequest req = false then .error .invalidRequest
  else
    match vecOut, lexOut with
    | none, none => .error .retrievalUnavailable
    | _, _ =>
      .ok (rankAndTruncate req.limit
        (mergedCandidatesOf req.weights tokenOf (vecOut.getD []) (lexOut.getD [])))

/-- Number of distinct chunk identifiers across both branches' candidate
sets. -/
def totalUniqueCandidates (vecOut lexOut : Option (List Hit)) : Nat :=
  (dedupIds [] ((vecOut.getD []).map Prod.fst ++ (lexOut.getD []).map Prod.fst)).length

/-! ## The exported Payload configuration (`src/cms/src/payload.config.ts`) -/

/-- A Payload collection, identified by its slug. -/
structure Collection where
  slug : String
deriving DecidableEq, Repr

/-- Modelled from the spec: the collection module
`src/cms/src/collections/Users.ts` imported by `payload.config.ts` is not
under `src/`; the spec describes the CMS files as headless-CMS boilerplate,
whose users collection has slug `users` (the config also uses `Users.slug`
as the admin user collection). -/
def Users : Collection := { slug := "users" }

/-- Modelled from the spec: the collection module
`src/cms/src/collections/Media.ts` imported by `payload.config.ts` is not
under `src/`; the boilerplate media collection has slug `media`. -/
def Media : Collection := { slug := "media" }

/-- An incoming HTTP request as seen by a Payload endpoint handler:
method, path, headers and body.  The health handler ignores all of it. -/
structure HttpRequest where
  method : String
  path : String
  headers : List (String × String)
  body : String
deriving DecidableEq, Repr

/-- An HTTP response: status code, headers, body. -/
structure HttpResponse where
  status : Nat
  headers : List (String × String)
  body : String
deriving DecidableEq, Repr

/-- The `/health` endpoint handler of `payload.config.ts` (lines 40–51):
`new Response(JSON.stringify(\x7b status: 'ok' \x7d), \x7b status: 200, ... \x7d)`.
It reads neither the request nor any backing-service state. -/
def healthHandler (_req : HttpRequest) : HttpResponse :=
  { status := 200,
    headers := [("Content-Type", "application/json")],
    body := "\x7b\"status\":\"ok\"\x7d" }

/-- A registered custom endpoint: path, HTTP method and handler. -/
structure Endpoint where
  path : String
  method : String
  handler : HttpRequest → HttpResponse

/-- The exported `buildConfig` call of `src/cms/src/payload.config.ts`,
restricted to the fields the claims are about: the registered collections
and the registered custom endpoints. -/
structure PayloadConfig where
  collections : List Collection
  endpoints : List Endpoint

/-- `export default buildConfig({... endpoints: [/health], collections:
[Users, Media] ...})` from `src/cms/src/payload.config.ts`. -/
def payloadConfig : PayloadConfig :=
  { collections := [Users, Media],
    endpoints := [{ path := "/health", method := "get", handler := healthHandler }] }

/-! ## Concrete example inputs (spec §8 scenarios) -/

/-- A well-formed example request: weights 0.5/0.5, limit 3 (§8 exact-dedup
scenario). -/
def exReq : RetrievalRequest :=
  { query := "q", limit := 3, filter := none,
    weights := { semanticWeight := 1/2, textWeight := 1/2 } }

/-- Example document-store token lookup. -/
def exTok : String → Nat := fun _ => 100

/-- Vector-branch output of the §8 exact-dedup scenario (ids A, B with
ascending distances). -/
def exVec : List Hit := [("A", 0), ("B", 1)]

/-- Lexical-branch output of the §8 exact-dedup scenario (ids B, C with
descending relevance). -/
def exLex : List Hit := [("B", 2), ("C", 1)]

/-- The merged, ranked result of the §8 exact-dedup scenario: A
(semantic-only), then B (both), then C (lexical-only). -/
def exRes : List ScoredResult :=
  [{ id := "A", semanticScore := some 1, lexicalScore := none, combinedScore := 1,
     matchedVia := .semantic, tokenCount := 100 },
   { id := "B", semanticScore := some 0, lexicalScore := some 1, combinedScore := 1/2,
     matchedVia := .both, tokenCount := 100 },
   { id := "C", semanticScore := none, lexicalScore := some 0, combinedScore := 0,
     matchedVia := .lexical, tokenCount := 100 }]

/-- First ranked result of the §8 budget-truncation scenario (1000
tokens). -/
def exB1 : ScoredResult :=
  { id := "b1", semanticScore := none, lexicalScore := some 1, combinedScore := 1,
    matchedVia := .lexical, tokenCount := 1000 }

/-- Second ranked result of the §8 budget-truncation scenario (1200
tokens). -/
def exB2 : ScoredResult :=
  { id := "b2", semanticScore := none, lexicalScore := some 1, combinedScore := 1,
    matchedVia := .lexical, tokenCount := 1200 }

/-- Third ranked result of the §8 budget-truncation scenario (900
tokens). -/
def exB3 : ScoredResult :=
  { id := "b3", semanticScore := none, lexicalScore := some 1, combinedScore := 1,
    matchedVia := .lexical, tokenCount := 900 }

/-- The §8 budget-truncation scenario input, token counts
[1000, 1200, 900]. -/
def exBudgetIn : List ScoredResult := [exB1, exB2, exB3]

/-- An example scored result used to instantiate the tie-break order. -/
def exR : ScoredResult :=
  { id := "A", semanticScore := some 1, lexicalScore := none, combinedScore := 1,
    matchedVia := .semantic, tokenCount := 100 }

/-! ## Lemmas about the Score Normalizer -/

theorem qmin_le_left (a b : ℚ) : qmin a b ≤ a := by
  unfold qmin; split
  · exact le_refl a
  · exact (lt_of_not_le (by assumption)).le

theorem qmin_le_right (a b : ℚ) : qmin a b ≤ b := by
  unfold qmin; split
  · assumption
  · exact le_refl b

theorem le_qmax_left (a b : ℚ) : a ≤ qmax a b := by
  unfold qmax; split
  · assumption
  · exact le_refl a

theorem le_qmax_right (a b : ℚ) : b ≤ qmax a b := by
  unfold qmax; split
  · exact le_refl b
  · exact (lt_of_not_le (by assumption)).le

theorem qmin_self (a : ℚ) : qmin a a = a := by
  unfold qmin; split <;> rfl

theorem qmax_self (a : ℚ) : qmax a a = a := by
  unfold qmax; split <;> rfl

theorem foldl_qmin_le_init (ss : List ℚ) (s : ℚ) : ss.foldl qmin s ≤ s := by
  induction ss generalizing s with
  | nil => exact le_refl s
  | cons a t ih =>
    simpa using le_trans (ih (qmin s a)) (qmin_le_left s a)

theorem foldl_qmin_le_mem (ss : List ℚ) (s : ℚ) : ∀ x ∈ ss, ss.foldl qmin s ≤ x := by
  induction ss generalizing s with
  | nil => intro x hx; cases hx
  | cons a t ih =>
    intro x hx
    rcases List.mem_cons.mp hx with rfl | hx
    · simpa using le_trans (foldl_qmin_le_init t (qmin s x)) (qmin_le_right s x)
    · simpa using ih (qmin s a) x hx

theorem le_foldl_qmax_init (ss : List ℚ) (s : ℚ) : s ≤ ss.foldl qmax s := by
  induction ss generalizing s with
  | nil => exact le_refl s
  | cons a t ih =>
    simpa using le_trans (le_qmax_left s a) (ih (qmax s a))

theorem mem_le_foldl_qmax (ss : List ℚ) (s : ℚ) : ∀ x ∈ ss, x ≤ ss.foldl qmax s := by
  induction ss generalizing s with
  | nil => intro x hx; cases hx
  | cons a t ih =>
    intro x hx
    rcases List.mem_cons.mp hx with rfl | hx
    · simpa using le_trans (le_qmax_right s x) (le_foldl_qmax_init t (qmax s x))
    · simpa using ih (qmax s a) x hx

/-- Every element of the batch lies between the batch minimum and maximum. -/
theorem batch_bounds (s : ℚ) (ss : List ℚ) :
    ∀ x ∈ s :: ss, ss.foldl qmin s ≤ x ∧ x ≤ ss.foldl qmax s := by
  intro x hx
  rcases List.mem_cons.mp hx with rfl | hx
  · exact ⟨foldl_qmin_le_init ss x, le_foldl_qmax_init ss x⟩
  · exact ⟨foldl_qmin_le_mem ss s x hx, mem_le_foldl_qmax ss s x hx⟩

theorem foldl_qmin_le_foldl_qmax (s : ℚ) (ss : List ℚ) :
    ss.foldl qmin s ≤ ss.foldl qmax s :=
  le_trans (foldl_qmin_le_init ss s) (le_foldl_qmax_init ss s)

theorem normalize_length (raw : List ℚ) : (normalize raw).length = raw.length := by
  cases raw with
  | nil => rfl
  | cons s ss => simp only [normalize]; split <;> simp

theorem normalize_mem_unitInterval (raw : List ℚ) :
    ∀ x ∈ normalize raw, 0 ≤ x ∧ x ≤ 1 := by
  cases raw with
  | nil => intro x hx; cases hx
  | cons s ss =>
    intro x hx
    simp only [normalize] at hx
    split at hx
    · obtain ⟨y, _, rfl⟩ := List.mem_map.mp hx
      norm_num
    · obtain ⟨y, hy, rfl⟩ := List.mem_map.mp hx
      obtain ⟨hmn, hmx⟩ := batch_bounds s ss y hy
      have hne : ss.foldl qmax s ≠ ss.foldl qmin s := by assumption
      have hlt : ss.foldl qmin s < ss.foldl qmax s :=
        lt_of_le_of_ne (foldl_qmin_le_foldl_qmax s ss) (Ne.symm hne)
      constructor
      · exact div_nonneg (sub_nonneg.mpr hmn) (sub_nonneg.mpr hlt.le)
      · rw [div_le_one (sub_pos.mpr hlt)]
        exact sub_le_sub_right hmx _

theorem getD_map_of_lt (f : ℚ → ℚ) (l : List ℚ) (i : Nat) (h : i < l.length) (d : ℚ) :
    (l.map f).getD i d = f (l.getD i d) := by
  simp [List.getD_eq_getElem?_getD, List.getElem?_map, List.getElem?_eq_getElem h]

theorem normalize_monotone (raw : List ℚ) (i j : Nat)
    (hi : i < raw.length) (hj : j < raw.length) (hle : raw.getD i 0 ≤ raw.getD j 0) :
    (normalize raw).getD i 0 ≤ (normalize raw).getD j 0 := by
  cases raw with
  | nil => cases hi
  | cons s ss =>
    simp only [normalize]
    split
    · rw [getD_map_of_lt _ _ _ hi, getD_map_of_lt _ _ _ hj]
    · rw [getD_map_of_lt _ _ _ hi, getD_map_of_lt _ _ _ hj]
      have hne : ss.foldl qmax s ≠ ss.foldl qmin s := by assumption
      have hlt : ss.foldl qmin s < ss.foldl qmax s :=
        lt_of_le_of_ne (foldl_qmin_le_foldl_qmax s ss) (Ne.symm hne)
      exact (div_le_div_iff_of_pos_right (sub_pos.mpr hlt)).mpr (sub_le_sub_right hle _)

theorem foldl_qmin_const (s : ℚ) (ss : List ℚ) (h : ∀ x ∈ ss, x = s) :
    ss.foldl qmin s = s := by
  induction ss with
  | nil => rfl
  | cons a t ih =>
    have ha : a = s := h a (List.mem_cons_self a t)
    subst ha
    simp only [List.foldl_cons, qmin_self]
    exact ih (fun x hx => h x (List.mem_cons_of_mem a hx))

theorem foldl_qmax_const (s : ℚ) (ss : List ℚ) (h : ∀ x ∈ ss, x = s) :
    ss.foldl qmax s = s := by
  induction ss with
  | nil => rfl
  | cons a t ih =>
    have ha : a = s := h a (List.mem_cons_self a t)
    subst ha
    simp only [List.foldl_cons, qmax_self]
    exact ih (fun x hx => h x (List.mem_cons_of_mem a hx))

/-! ## Lemmas about the Context Budgeter -/

theorem budget_eq_take (rs : List ScoredResult) (mc mt : Nat) :
    budget rs mc mt = rs.take (budget rs mc mt).length := by
  induction rs generalizing mc mt with
  | nil => rfl
  | cons r t ih =>
    simp only [budget]
    split
    · simp only [List.length_cons, List.take_succ_cons]
      exact congrArg (r :: ·) (ih _ _)
    · rfl

theorem tokensOf_cons (r : ScoredResult) (t : List ScoredResult) :
    tokensOf (r :: t) = r.tokenCount + tokensOf t := by
  simp [tokensOf]

theorem budget_within (rs : List ScoredResult) (mc mt : Nat) :
    tokensOf (budget rs mc mt) ≤ mt ∧ (budget rs mc mt).length ≤ mc := by
  induction rs generalizing mc mt with
  | nil => simp [budget, tokensOf]
  | cons r t ih =>
    by_cases hc : r.tokenCount ≤ mt ∧ 1 ≤ mc
    · simp only [budget, if_pos hc]
      obtain ⟨h1, h2⟩ := ih (mc - 1) (mt - r.tokenCount)
      rw [tokensOf_cons]
      simp only [List.length_cons]
      omega
    · simp [budget, if_neg hc, tokensOf]

theorem budget_stop (rs : List ScoredResult) (mc mt : Nat)
    (hlt : (budget rs mc mt).length < rs.length) :
    ¬(tokensOf (rs.take ((budget rs mc mt).length + 1)) ≤ mt
      ∧ (budget rs mc mt).length + 1 ≤ mc) := by
  induction rs generalizing mc mt with
  | nil => simp at hlt
  | cons r t ih =>
    by_cases hc : r.tokenCount ≤ mt ∧ 1 ≤ mc
    · simp only [budget, if_pos hc] at hlt ⊢
      simp only [List.length_cons, List.take_succ_cons] at hlt ⊢
      rintro ⟨ha, hb⟩
      refine ih (mc - 1) (mt - r.tokenCount) (by omega) ⟨?_, by omega⟩
      rw [tokensOf_cons] at ha
      omega
    · simp only [budget, if_neg hc] at hlt ⊢
      simp only [List.length_nil, List.take_succ_cons, List.take_zero]
      rintro ⟨ha, hb⟩
      rw [tokensOf_cons] at ha
      simp [tokensOf] at ha
      exact hc ⟨by omega, hb⟩

theorem budget_head (r : ScoredResult) (t : List ScoredResult) (mc mt : Nat)
    (hrt : r.tokenCount ≤ mt) (hrc : 1 ≤ mc) :
    (budget (r :: t) mc mt).head? = some r := by
  simp [budget, if_pos (And.intro hrt hrc)]

theorem normalize_allEqual (raw : List ℚ)
    (h : raw.length = 1 ∨ ∀ x ∈ raw, ∀ y ∈ raw, x = y) :
    ∀ x ∈ normalize raw, x = 1 := by
  cases raw with
  | nil => intro x hx; cases hx
  | cons s ss =>
    intro x hx
    have hconst : ∀ y ∈ ss, y = s := by
      rcases h with h1 | hall
      · intro y hy
        have : ss = [] := by
          cases ss with
          | nil => rfl
          | cons a t => simp at h1
        subst this; cases hy
      · intro y hy
        exact hall y (List.mem_cons_of_mem s hy) s (List.mem_cons_self s ss)
    simp only [normalize] at hx
    rw [if_pos (by rw [foldl_qmin_const s ss hconst, foldl_qmax_const s ss hconst])] at hx
    obtain ⟨y, _, rfl⟩ := List.mem_map.mp hx
    rfl

/-! ## Lemmas about deduplication -/

theorem mem_dedupIds (xs : List String) : ∀ (seen : List String) (a : String),
    a ∈ dedupIds seen xs ↔ a ∈ xs ∧ a ∉ seen := by
  induction xs with
  | nil => intro seen a; simp [dedupIds]
  | cons x t ih =>
    intro seen a
    simp only [dedupIds]
    by_cases hx : x ∈ seen
    · rw [if_pos hx, ih, List.mem_cons]
      constructor
      · rintro ⟨h1, h2⟩
        exact ⟨Or.inr h1, h2⟩
      · rintro ⟨rfl | h1, h2⟩
        · exact absurd hx h2
        · exact ⟨h1, h2⟩
    · rw [if_neg hx]
      simp only [List.mem_cons, ih, List.mem_cons]
      constructor
      · rintro (rfl | ⟨h1, h2⟩)
        · exact ⟨Or.inl rfl, hx⟩
        · exact ⟨Or.inr h1, fun hs => h2 (Or.inr hs)⟩
      · rintro ⟨rfl | h1, h2⟩
        · exact Or.inl rfl
        · rcases eq_or_ne a x with rfl | hax
          · exact Or.inl rfl
          · exact Or.inr ⟨h1, fun hs => hs.elim hax h2⟩

theorem dedupIds_nodup (xs : List String) : ∀ seen, (dedupIds seen xs).Nodup := by
  induction xs with
  | nil => intro seen; simp [dedupIds]
  | cons x t ih =>
    intro seen
    simp only [dedupIds]
    by_cases hx : x ∈ seen
    · rw [if_pos hx]; exact ih seen
    · rw [if_neg hx]
      refine List.nodup_cons.mpr ⟨fun hmem => ?_, ih (x :: seen)⟩
      exact ((mem_dedupIds t (x :: seen) x).mp hmem).2 (List.mem_cons_self x seen)

theorem dedupIds_congr (xs : List String) : ∀ (s t : List String),
    (∀ a, a ∈ s ↔ a ∈ t) → dedupIds s xs = dedupIds t xs := by
  induction xs with
  | nil => intro s t _; rfl
  | cons x l ih =>
    intro s t h
    simp only [dedupIds]
    by_cases hx : x ∈ s
    · rw [if_pos hx, if_pos ((h x).mp hx), ih s t h]
    · rw [if_neg hx, if_neg (fun hc => hx ((h x).mpr hc))]
      congr 1
      exact ih _ _ (fun a => by simp only [List.mem_cons]; rw [h a])

theorem dedupIds_append (xs ys : List String) : ∀ seen,
    dedupIds seen (xs ++ ys) = dedupIds seen xs ++ dedupIds (xs ++ seen) ys := by
  induction xs with
  | nil => intro seen; simp [dedupIds]
  | cons x t ih =>
    intro seen
    simp only [List.cons_append, dedupIds, List.append_eq]
    by_cases hx : x ∈ seen
    · rw [if_pos hx, if_pos hx, ih seen]
      congr 1
      refine dedupIds_congr ys _ _ (fun a => ?_)
      simp only [List.mem_append, List.mem_cons]
      constructor
      · rintro (h | h)
        · exact Or.inr (Or.inl h)
        · exact Or.inr (Or.inr h)
      · rintro (rfl | h | h)
        · exact Or.inr hx
        · exact Or.inl h
        · exact Or.inr h
    · rw [if_neg hx, if_neg hx, ih (x :: seen)]
      simp only [List.cons_append]
      congr 2
      refine dedupIds_congr ys _ _ (fun a => ?_)
      simp only [List.mem_append, List.mem_cons]
      tauto

theorem filter_dedupIds (ys : List String) (s : List String) : ∀ t,
    (dedupIds t ys).filter (fun a => decide (a ∉ s)) = dedupIds (s ++ t) ys := by
  induction ys with
  | nil => intro t; rfl
  | cons x l ih =>
    intro t
    simp only [dedupIds]
    by_cases hxt : x ∈ t
    · rw [if_pos hxt, if_pos (List.mem_append.mpr (Or.inr hxt)), ih t]
    · rw [if_neg hxt]
      by_cases hxs : x ∈ s
      · rw [if_pos (List.mem_append.mpr (Or.inl hxs))]
        simp only [List.filter_cons]
        rw [if_neg (by simp [hxs])]
        rw [ih (x :: t)]
        refine dedupIds_congr l _ _ (fun a => ?_)
        simp only [List.mem_append, List.mem_cons]
        constructor
        · rintro (h | rfl | h)
          · exact Or.inl h
          · exact Or.inl hxs
          · exact Or.inr h
        · rintro (h | h)
          · exact Or.inl h
          · exact Or.inr (Or.inr h)
      · rw [if_neg (fun hc => (List.mem_append.mp hc).elim hxs hxt)]
        simp only [List.filter_cons]
        rw [if_pos (by simp [hxs])]
        rw [ih (x :: t)]
        congr 1
        refine dedupIds_congr l _ _ (fun a => ?_)
        simp only [List.mem_append, List.mem_cons]
        tauto

theorem dedupHits_map_fst (hs : List Hit) : ∀ seen,
    (dedupHits seen hs).map Prod.fst = dedupIds seen (hs.map Prod.fst) := by
  induction hs with
  | nil => intro seen; rfl
  | cons p ps ih =>
    intro seen
    simp only [dedupHits, List.map_cons, dedupIds]
    by_cases hp : p.1 ∈ seen
    · rw [if_pos hp, if_pos hp, ih seen]
    · rw [if_neg hp, if_neg hp, List.map_cons, ih (p.1 :: seen)]

/-! ## Lemmas about the merge -/

theorem lookupScore_eq_none_iff (a : String) (ps : List Hit) :
    lookupScore a ps = none ↔ a ∉ ps.map Prod.fst := by
  simp only [lookupScore, Option.map_eq_none', List.find?_eq_none,
    decide_eq_true_eq, List.mem_map]
  constructor
  · rintro h ⟨p, hp, rfl⟩
    exact h p hp rfl
  · intro h p hp hpa
    exact h ⟨p, hp, hpa⟩

theorem mergeCandidates_map_id (w : Weights) (tok : String → Nat) (vP lP : List Hit) :
    (mergeCandidates w tok vP lP).map ScoredResult.id =
      vP.map Prod.fst
        ++ ((lP.filter (fun p => lookupScore p.1 vP = none)).map Prod.fst) := by
  simp only [mergeCandidates, List.map_append, List.map_map]
  congr 1
  · refine List.map_congr_left (fun p _ => ?_)
    simp only [Function.comp_apply]
    cases lookupScore p.1 lP <;> rfl

theorem mergeCandidates_ids_nodup (w : Weights) (tok : String → Nat) (vP lP : List Hit)
    (hv : (vP.map Prod.fst).Nodup) (hl : (lP.map Prod.fst).Nodup) :
    ((mergeCandidates w tok vP lP).map ScoredResult.id).Nodup := by
  rw [mergeCandidates_map_id]
  rw [List.nodup_append]
  refine ⟨hv, hl.sublist ((List.filter_sublist _).map _), ?_⟩
  intro a ha hb
  obtain ⟨p, hp, rfl⟩ := List.mem_map.mp hb
  have hnone := List.of_mem_filter hp
  rw [decide_eq_true_eq] at hnone
  exact (lookupScore_eq_none_iff p.1 vP).mp hnone ha

/-! ## Lemmas about the ranking sort -/

theorem insertRanked_perm (a : Nat × ScoredResult) (l : List (Nat × ScoredResult)) :
    (insertRanked a l).Perm (a :: l) := by
  induction l with
  | nil => exact List.Perm.refl _
  | cons b bs ih =>
    simp only [insertRanked]
    split
    · exact List.Perm.refl _
    · exact (ih.cons b).trans (List.Perm.swap a b bs)

theorem sortRanked_perm (l : List (Nat × ScoredResult)) : (sortRanked l).Perm l := by
  induction l with
  | nil => exact List.Perm.refl _
  | cons a as ih =>
    exact (insertRanked_perm a (sortRanked as)).trans (ih.cons a)

/-! ## Lemmas about the full pipeline -/

theorem zip_normalize_map_fst (raw : List Hit) (f : Hit → ℚ) :
    ((raw.map Prod.fst).zip (normalize (raw.map f))).map Prod.fst = raw.map Prod.fst := by
  apply List.map_fst_zip
  rw [normalize_length, List.length_map, List.length_map]

theorem mergedCandidatesOf_ids_nodup (w : Weights) (tok : String → Nat)
    (vhits lhits : List Hit) :
    ((mergedCandidatesOf w tok vhits lhits).map ScoredResult.id).Nodup := by
  simp only [mergedCandidatesOf]
  apply mergeCandidates_ids_nodup
  · rw [zip_normalize_map_fst, dedupHits_map_fst]
    exact dedupIds_nodup _ _
  · rw [zip_normalize_map_fst, dedupHits_map_fst]
    exact dedupIds_nodup _ _

theorem mergedCandidatesOf_length (w : Weights) (tok : String → Nat)
    (vhits lhits : List Hit) :
    (mergedCandidatesOf w tok vhits lhits).length =
      (dedupIds [] (vhits.map Prod.fst ++ lhits.map Prod.fst)).length := by
  simp only [mergedCandidatesOf]
  set vP := ((dedupHits [] vhits).map Prod.fst).zip
    (normalize ((dedupHits [] vhits).map (fun h => 1 - h.2))) with hvP
  set lP := ((dedupHits [] lhits).map Prod.fst).zip
    (normalize ((dedupHits [] lhits).map Prod.snd)) with hlP
  have hvfst : vP.map Prod.fst = dedupIds [] (vhits.map Prod.fst) := by
    rw [hvP, zip_normalize_map_fst, dedupHits_map_fst]
  have hlfst : lP.map Prod.fst = dedupIds [] (lhits.map Prod.fst) := by
    rw [hlP, zip_normalize_map_fst, dedupHits_map_fst]
  have h1 : (mergeCandidates w tok vP lP).length
      = (vP.map Prod.fst).length
        + ((lP.filter (fun p => lookupScore p.1 vP = none)).map Prod.fst).length := by
    rw [← List.length_map (mergeCandidates w tok vP lP) ScoredResult.id,
      mergeCandidates_map_id, List.length_append]
  rw [h1, hvfst]
  have h2 : (lP.filter (fun p => lookupScore p.1 vP = none)).map Prod.fst
      = (lP.map Prod.fst).filter (fun a => decide (lookupScore a vP = none)) := by
    rw [List.filter_map]
    rfl
  rw [h2, hlfst]
  have h3 : (dedupIds [] (lhits.map Prod.fst)).filter
        (fun a => decide (lookupScore a vP = none))
      = (dedupIds [] (lhits.map Prod.fst)).filter
        (fun a => decide (a ∉ vhits.map Prod.fst)) := by
    apply List.filter_congr
    intro a _
    rw [decide_eq_decide, lookupScore_eq_none_iff, hvfst]
    rw [mem_dedupIds]
    simp
  rw [h3, filter_dedupIds, dedupIds_append, List.length_append]

theorem rankAndTruncate_length (limit : Nat) (merged : List ScoredResult) :
    (rankAndTruncate limit merged).length = min limit merged.length := by
  unfold rankAndTruncate
  rw [List.length_take, List.length_map, (sortRanked_perm merged.enum).length_eq,
    List.enum_length]

theorem rankAndTruncate_mem (limit : Nat) (merged : List ScoredResult) :
    ∀ r ∈ rankAndTruncate limit merged, r ∈ merged := by
  intro r hr
  have h1 : r ∈ (sortRanked merged.enum).map Prod.snd := List.mem_of_mem_take hr
  have h2 : ((sortRanked merged.enum).map Prod.snd).Perm (merged.enum.map Prod.snd) :=
    (sortRanked_perm _).map _
  rw [List.enum_map_snd] at h2
  exact h2.mem_iff.mp h1

theorem rankAndTruncate_ids_nodup (limit : Nat) (merged : List ScoredResult)
    (h : (merged.map ScoredResult.id).Nodup) :
    ((rankAndTruncate limit merged).map ScoredResult.id).Nodup := by
  unfold rankAndTruncate
  have hperm : (((sortRanked merged.enum).map Prod.snd).map ScoredResult.id).Perm
      (merged.map ScoredResult.id) := by
    have h0 := ((sortRanked_perm merged.enum).map Prod.snd).map ScoredResult.id
    rwa [List.enum_map_snd] at h0
  have hnodup : (((sortRanked merged.enum).map Prod.snd).map ScoredResult.id).Nodup :=
    hperm.nodup_iff.mpr h
  rw [List.map_take]
  exact hnodup.sublist (List.take_sublist _ _)

theorem hybridSearch_ok_elim (req : RetrievalRequest) (tok : String → Nat)
    (v l : Option (List Hit)) (res : List ScoredResult)
    (h : hybridSearch req tok v l = .ok res) :
    res = rankAndTruncate req.limit
      (mergedCandidatesOf req.weights tok (v.getD []) (l.getD [])) := by
  unfold hybridSearch at h
  by_cases hval : validRequest req = false
  · rw [if_pos hval] at h
    exact Except.noConfusion h
  · rw [if_neg hval] at h
    cases v <;> cases l
    · exact Except.noConfusion h
    · exact (Except.ok.inj h).symm
    · exact (Except.ok.inj h).symm
    · exact (Except.ok.inj h).symm

theorem mergeCandidates_nil_left (w : Weights) (tok : String → Nat) (lP : List Hit) :
    ∀ r ∈ mergeCandidates w tok [] lP, r.matchedVia = .lexical := by
  intro r hr
  unfold mergeCandidates at hr
  simp only [List.map_nil, List.nil_append] at hr
  obtain ⟨p, _, rfl⟩ := List.mem_map.mp hr
  rfl

theorem mergedCandidatesOf_nil_left (w : Weights) (tok : String → Nat) (lhits : List Hit) :
    ∀ r ∈ mergedCandidatesOf w tok [] lhits, r.matchedVia = .lexical := by
  intro r hr
  exact mergeCandidates_nil_left w tok _ r hr

/-! ## The tie-break order is total -/

theorem rankLE_total (a b : Nat × ScoredResult) :
    rankLE a b = true ∨ rankLE b a = true := by
  simp only [rankLE, Bool.or_eq_true, Bool.and_eq_true, decide_eq_true_eq]
  rcases lt_trichotomy a.2.combinedScore b.2.combinedScore with h | h | h
  · right; left; exact h
  · rcases Nat.lt_trichotomy (viaRank a.2.matchedVia) (viaRank b.2.matchedVia) with hv | hv | hv
    · left; right; exact ⟨h, Or.inl hv⟩
    · rcases Nat.le_total a.1 b.1 with hi | hi
      · left; right; exact ⟨h, Or.inr ⟨hv, hi⟩⟩
      · right; right; exact ⟨h.symm, Or.inr ⟨hv.symm, hi⟩⟩
    · right; right; exact ⟨h.symm, Or.inl hv⟩
  · left; left; exact h

theorem rankLE_antisymm_idx (a b : Nat × ScoredResult)
    (hab : rankLE a b = true) (hba : rankLE b a = true) : a.1 = b.1 := by
  simp only [rankLE, Bool.or_eq_true, Bool.and_eq_true, decide_eq_true_eq] at hab hba
  rcases hab with h1 | ⟨he1, hv1⟩
  · rcases hba with h2 | ⟨he2, hv2⟩
    · exact absurd h2 (lt_asymm h1)
    · rw [he2] at h1
      exact absurd h1 (lt_irrefl _)
  · rcases hba with h2 | ⟨he2, hv2⟩
    · rw [he1] at h2
      exact absurd h2 (lt_irrefl _)
    · omega

theorem rankLE_trans (a b c : Nat × ScoredResult)
    (hab : rankLE a b = true) (hbc : rankLE b c = true) : rankLE a c = true := by
  simp only [rankLE, Bool.or_eq_true, Bool.and_eq_true, decide_eq_true_eq] at hab hbc ⊢
  rcases hab with h1 | ⟨he1, hv1⟩
  · rcases hbc with h2 | ⟨he2, hv2⟩
    · exact Or.inl (lt_trans h2 h1)
    · exact Or.inl (he2 ▸ h1)
  · rcases hbc with h2 | ⟨he2, hv2⟩
    · exact Or.inl (he1.symm ▸ h2)
    · exact Or.inr ⟨he1.trans he2, by omega⟩

/-! ## Concrete evaluations -/

theorem exReq_valid : validRequest exReq = true := by
  simp [validRequest, exReq]
  norm_num

theorem exEval : hybridSearch exReq exTok (some exVec) (some exLex) = .ok exRes := by
  simp [hybridSearch, validRequest, exReq, exTok, exVec, exLex, exRes, dedupHits, normalize,
    qmin, qmax, mergedCandidatesOf, rankAndTruncate, mergeCandidates, lookupScore, List.find?,
    List.enum, List.enumFrom]
  norm_num [sortRanked, insertRanked, rankLE, viaRank]

/-! ## The claims -/

/-- C1: every collection registered in the exported Payload configuration
has slug `users` or `media`, and the only registered custom endpoint is
`/health` — no document/chunk/metadata collection and no search endpoint
exists in the executable configuration. -/
theorem c1_no_retrieval_collections :
    payloadConfig.collections.map Collection.slug = ["users", "media"]
    ∧ payloadConfig.endpoints.map (fun e => e.path) = ["/health"] :=
  ⟨rfl, rfl⟩

/-- C2: deduplication invariant — in any successful `hybridSearch` result
list, each chunk identifier appears at most once. -/
theorem c2_dedup_invariant (req : RetrievalRequest) (tok : String → Nat)
    (v l : Option (List Hit)) (res : List ScoredResult)
    (h : hybridSearch req tok v l = .ok res) :
    (res.map ScoredResult.id).Nodup := by
  rw [hybridSearch_ok_elim req tok v l res h]
  exact rankAndTruncate_ids_nodup _ _ (mergedCandidatesOf_ids_nodup _ _ _ _)

/-- Witness for C2 at the §8 exact-dedup scenario. -/
theorem c2_dedup_invariant_witness :
    hybridSearch exReq exTok (some exVec) (some exLex) = Except.ok exRes
    ∧ (exRes.map ScoredResult.id).Nodup :=
  ⟨exEval, c2_dedup_invariant exReq exTok (some exVec) (some exLex) exRes exEval⟩

/-- C3: bound invariant — a successful result list has length at most
`req.limit` and at least `min req.limit totalUniqueCandidates`. -/
theorem c3_bound_invariant (req : RetrievalRequest) (tok : String → Nat)
    (v l : Option (List Hit)) (res : List ScoredResult)
    (_hpos : 0 < req.limit)
    (h : hybridSearch req tok v l = .ok res) :
    res.length ≤ req.limit
    ∧ min req.limit (totalUniqueCandidates v l) ≤ res.length := by
  rw [hybridSearch_ok_elim req tok v l res h]
  rw [rankAndTruncate_length, mergedCandidatesOf_length]
  exact ⟨Nat.min_le_left _ _, le_refl _⟩

/-- Witness for C3 at the §8 exact-dedup scenario (limit 3, four raw hits,
three distinct identifiers). -/
theorem c3_bound_invariant_witness :
    0 < exReq.limit
    ∧ (exRes.length ≤ exReq.limit
        ∧ min exReq.limit (totalUniqueCandidates (some exVec) (some exLex)) ≤ exRes.length) :=
  ⟨by norm_num [exReq],
   c3_bound_invariant exReq exTok (some exVec) (some exLex) exRes (by norm_num [exReq]) exEval⟩

/-- C4: merge-formula — every merged result either carries both scores with
`combinedScore = semanticScore * semanticWeight + lexicalScore * textWeight`,
or carries exactly one score and its `combinedScore` equals that score
unchanged (the absent score is not treated as 0). -/
theorem c4_renormalization (w : Weights) (tok : String → Nat) (vP lP : List Hit)
    (r : ScoredResult) (hr : r ∈ mergeCandidates w tok vP lP) :
    (∃ s lx, r.semanticScore = some s ∧ r.lexicalScore = some lx
        ∧ r.matchedVia = .both
        ∧ r.combinedScore = s * w.semanticWeight + lx * w.textWeight)
    ∨ (∃ s, r.semanticScore = some s ∧ r.lexicalScore = none
        ∧ r.matchedVia = .semantic ∧ r.combinedScore = s)
    ∨ (∃ lx, r.semanticScore = none ∧ r.lexicalScore = some lx
        ∧ r.matchedVia = .lexical ∧ r.combinedScore = lx) := by
  unfold mergeCandidates at hr
  rcases List.mem_append.mp hr with hv | hl
  · obtain ⟨p, _, rfl⟩ := List.mem_map.mp hv
    cases hls : lookupScore p.1 lP with
    | some lx =>
      left
      refine ⟨p.2, lx, ?_, ?_, ?_, ?_⟩ <;> simp only [hls]
    | none =>
      right; left
      refine ⟨p.2, ?_, ?_, ?_, ?_⟩ <;> simp only [hls]
  · obtain ⟨p, _, rfl⟩ := List.mem_map.mp hl
    right; right
    exact ⟨p.2, rfl, rfl, rfl, rfl⟩

/-- Witness for C4 at a semantic-only merge of a single vector hit. -/
theorem c4_renormalization_witness :
    exR ∈ mergeCandidates exReq.weights exTok [("A", 1)] []
    ∧ ((∃ s lx, exR.semanticScore = some s ∧ exR.lexicalScore = some lx
          ∧ exR.matchedVia = .both
          ∧ exR.combinedScore = s * exReq.weights.semanticWeight + lx * exReq.weights.textWeight)
        ∨ (∃ s, exR.semanticScore = some s ∧ exR.lexicalScore = none
            ∧ exR.matchedVia = .semantic ∧ exR.combinedScore = s)
        ∨ (∃ lx, exR.semanticScore = none ∧ exR.lexicalScore = some lx
            ∧ exR.matchedVia = .lexical ∧ exR.combinedScore = lx)) := by
  have hmem : exR ∈ mergeCandidates exReq.weights exTok [("A", 1)] [] := by
    simp [mergeCandidates, lookupScore, exTok, exR]
  exact ⟨hmem, c4_renormalization exReq.weights exTok [("A", 1)] [] exR hmem⟩

/-- C5: the Score Normalizer preserves batch length, maps every element
into [0,1], preserves the relative order of the inputs, and maps a batch of
size 1 or an all-equal batch to all-ones. -/
theorem c5_normalize_contract (raw : List ℚ) :
    (normalize raw).length = raw.length
    ∧ (∀ x ∈ normalize raw, 0 ≤ x ∧ x ≤ 1)
    ∧ (∀ i j, i < raw.length → j < raw.length → raw.getD i 0 ≤ raw.getD j 0 →
        (normalize raw).getD i 0 ≤ (normalize raw).getD j 0)
    ∧ ((raw.length = 1 ∨ ∀ x ∈ raw, ∀ y ∈ raw, x = y) → ∀ x ∈ normalize raw, x = 1) :=
  ⟨normalize_length raw, normalize_mem_unitInterval raw,
   fun i j hi hj hle => normalize_monotone raw i j hi hj hle,
   normalize_allEqual raw⟩

/-- Witness for C5 at the batches [3, 5] and [7]. -/
theorem c5_normalize_contract_witness :
    (normalize [(3:ℚ), 5]).length = 2
    ∧ (0 ≤ (normalize [(3:ℚ), 5]).getD 0 0 ∧ (normalize [(3:ℚ), 5]).getD 0 0 ≤ 1)
    ∧ (normalize [(3:ℚ), 5]).getD 0 0 ≤ (normalize [(3:ℚ), 5]).getD 1 0
    ∧ (normalize [(7:ℚ)]).getD 0 0 = 1 := by
  have heq : normalize [(3:ℚ), 5] = [0, 1] := by norm_num [normalize, qmin, qmax]
  have heq7 : normalize [(7:ℚ)] = [1] := by norm_num [normalize]
  obtain ⟨h1, h2, h3, -⟩ := c5_normalize_contract [(3:ℚ), 5]
  obtain ⟨-, -, -, h4⟩ := c5_normalize_contract [(7:ℚ)]
  refine ⟨by simpa using h1, h2 _ ?_, h3 0 1 (by norm_num) (by norm_num) (by simp; norm_num),
    h4 (Or.inl rfl) _ ?_⟩
  · rw [heq]; simp
  · rw [heq7]; simp

/-- C6: determinism — `hybridSearch` is a function of its inputs, and the
tie-break relation `rankLE` is a total order on sort keys: total,
antisymmetric up to the first-seen index (distinct indices are strictly
ordered), and transitive. -/
theorem c6_determinism (req : RetrievalRequest) (tok : String → Nat)
    (v l : Option (List Hit)) (a b c : Nat × ScoredResult) :
    hybridSearch req tok v l = hybridSearch req tok v l
    ∧ (rankLE a b = true ∨ rankLE b a = true)
    ∧ (rankLE a b = true → rankLE b a = true → a.1 = b.1)
    ∧ (rankLE a b = true → rankLE b c = true → rankLE a c = true) :=
  ⟨rfl, rankLE_total a b, rankLE_antisymm_idx a b, rankLE_trans a b c⟩

/-- Witness for C6 at concrete sort keys. -/
theorem c6_determinism_witness :
    hybridSearch exReq exTok (some exVec) (some exLex)
      = hybridSearch exReq exTok (some exVec) (some exLex)
    ∧ (rankLE (0, exR) (0, exR) = true ∧ (0, exR).1 = (0, exR).1)
    ∧ rankLE (0, exR) (1, exR) = true := by
  have h00 : rankLE (0, exR) (0, exR) = true := by
    simp [rankLE]
  have h01 : rankLE (0, exR) (1, exR) = true := by
    simp [rankLE]
  obtain ⟨h1, -, h3, h4⟩ := c6_determinism exReq exTok (some exVec) (some exLex)
    (0, exR) (0, exR) (1, exR)
  exact ⟨h1, ⟨h00, h3 h00 h00⟩, h4 h00 h01⟩

/-- C7: single-branch degradation — when the vector branch fails and the
lexical branch succeeds, `hybridSearch` on a valid request succeeds with
only lexical results (`matchedVia = lexical` throughout), and the failing
branch is treated exactly like a branch that returned no hits. -/
theorem c7_degradation (req : RetrievalRequest) (tok : String → Nat)
    (lhits : List Hit) (hval : validRequest req = true) :
    (∃ res, hybridSearch req tok none (some lhits) = .ok res
      ∧ ∀ r ∈ res, r.matchedVia = .lexical)
    ∧ hybridSearch req tok none (some lhits)
        = hybridSearch req tok (some []) (some lhits) := by
  constructor
  · refine ⟨rankAndTruncate req.limit (mergedCandidatesOf req.weights tok [] lhits), ?_, ?_⟩
    · unfold hybridSearch
      rw [if_neg (by simp [hval])]
      rfl
    · intro r hr
      exact mergedCandidatesOf_nil_left req.weights tok lhits r
        (rankAndTruncate_mem _ _ r hr)
  · unfold hybridSearch
    rw [if_neg (by simp [hval]), if_neg (by simp [hval])]
    rfl

/-- Witness for C7 with the §8 lexical branch output. -/
theorem c7_degradation_witness :
    validRequest exReq = true
    ∧ ((∃ res, hybridSearch exReq exTok none (some exLex) = .ok res
          ∧ ∀ r ∈ res, r.matchedVia = .lexical)
        ∧ hybridSearch exReq exTok none (some exLex)
            = hybridSearch exReq exTok (some []) (some exLex)) :=
  ⟨exReq_valid, c7_degradation exReq exTok exLex exReq_valid⟩

/-- C8: total failure — on a valid request `hybridSearch` fails with
`RetrievalUnavailable` exactly when both branches failed; in particular it
never reports an empty success in that situation. -/
theorem c8_total_failure (req : RetrievalRequest) (tok : String → Nat)
    (v l : Option (List Hit)) (hval : validRequest req = true) :
    hybridSearch req tok v l = .error .retrievalUnavailable ↔ (v = none ∧ l = none) := by
  unfold hybridSearch
  rw [if_neg (by simp [hval])]
  cases v <;> cases l <;> simp

/-- Witness for C8: both branches down yields `RetrievalUnavailable`. -/
theorem c8_total_failure_witness :
    validRequest exReq = true
    ∧ hybridSearch exReq exTok none none = Except.error RetrievalError.retrievalUnavailable :=
  ⟨exReq_valid, (c8_total_failure exReq exTok none none exReq_valid).mpr ⟨rfl, rfl⟩⟩

/-- C9: the Context Budgeter returns an order-preserving prefix of its
input that fits both limits, stops exactly at the first result whose
inclusion would exceed a limit, and always includes the top result when it
alone fits. -/
theorem c9_budget_contract (rs : List ScoredResult) (mc mt : Nat) :
    budget rs mc mt = rs.take (budget rs mc mt).length
    ∧ (tokensOf (budget rs mc mt) ≤ mt ∧ (budget rs mc mt).length ≤ mc)
    ∧ ((budget rs mc mt).length < rs.length →
        ¬(tokensOf (rs.take ((budget rs mc mt).length + 1)) ≤ mt
          ∧ (budget rs mc mt).length + 1 ≤ mc))
    ∧ (∀ r t, rs = r :: t → r.tokenCount ≤ mt → 1 ≤ mc →
        (budget rs mc mt).head? = some r) :=
  ⟨budget_eq_take rs mc mt, budget_within rs mc mt, budget_stop rs mc mt,
   fun r t hrs hrt hrc => hrs ▸ budget_head r t mc mt hrt hrc⟩

/-- Witness for C9 at the §8 budget-truncation scenario: token counts
[1000, 1200, 900] with `maxTokens = 2000`, `maxChunks = 10` keep exactly
the first result. -/
theorem c9_budget_contract_witness :
    (budget exBudgetIn 10 2000).head? = some exB1
    ∧ budget exBudgetIn 10 2000 = [exB1] := by
  obtain ⟨-, -, -, hhead⟩ := c9_budget_contract exBudgetIn 10 2000
  refine ⟨hhead exB1 [exB2, exB3] rfl (by norm_num [exB1]) (by norm_num), ?_⟩
  simp [budget, exBudgetIn, exB1, exB2, exB3]

/-- C10: the `/health` endpoint handler returns HTTP 200 with body
`{"status":"ok"}` for every request, independent of the request's contents
(and of any backing-service state, none of which it reads); being a total
function, it never throws. -/
theorem c10_health_constancy (req other : HttpRequest) :
    (healthHandler req).status = 200
    ∧ (healthHandler req).body = "\x7b\"status\":\"ok\"\x7d"
    ∧ healthHandler req = healthHandler other :=
  ⟨rfl, rfl, rfl⟩

end RagAgent
